import Mathlib

/-!
Verification of the statistical core of the sepsis3-mimic repository
(`sepsis_utils/sepsis_utils.py`).

The Python source is shallowly embedded below: floats are modelled by exact
rationals (`ℚ`), fallible computations (Python exceptions such as
`ZeroDivisionError`, `TypeError`, `IndexError`) return `Option`/flagged
results, and the two unbounded `while` loops of the Clopper-Pearson solver
are modelled with an explicit fuel parameter (theorems show a fixed fuel of
17 iterations always suffices, matching the termination of the source's
loops, which halve their search bracket at every step).
-/

namespace Sepsis3

attribute [local semireducible] Rat.add Rat.sub Rat.mul Rat.inv

/- ----------------------------------------------------------------------
`binomial_proportion(N, p, x1, x2)` (source lines 662-680).

The Python loop runs for k = 0, 1, ..., floor(N); `q = p/(1-p)` raises
`ZeroDivisionError` when p = 1, and the final `s/tot` raises when the
accumulator `tot` is zero.  Both failure modes are modelled by `none`.
`bpLoop` carries the loop state (k, v, s, tot); the fuel argument counts the
remaining iterations, exactly `floor(N) + 1` at entry.
---------------------------------------------------------------------- -/

def bpLoop (N q x1 x2 : ℚ) : ℕ → ℕ → ℚ → ℚ → ℚ → ℚ × ℚ
  | 0, _, _, s, tot => (s, tot)
  | fuel + 1, k, v, s, tot =>
    let tot1 := tot + v
    let s1 := if x1 ≤ (k : ℚ) ∧ (k : ℚ) ≤ x2 then s + v else s
    let s2 := if tot1 > 10 ^ 30 then s1 / 10 ^ 30 else s1
    let tot2 := if tot1 > 10 ^ 30 then tot1 / 10 ^ 30 else tot1
    let v2 := if tot1 > 10 ^ 30 then v / 10 ^ 30 else v
    let v3 := v2 * q * (N + 1 - ((k + 1 : ℕ) : ℚ)) / ((k + 1 : ℕ) : ℚ)
    bpLoop N q x1 x2 fuel (k + 1) v3 s2 tot2

def binomial_proportion (N p x1 x2 : ℚ) : Option ℚ :=
  if p = 1 then none
  else
    let q := p / (1 - p)
    let st := bpLoop N q x1 x2 (⌊N⌋ + 1).toNat 0 1 0 0
    if st.2 = 0 then none else some (st.1 / st.2)

/- ----------------------------------------------------------------------
`binomial_proportion_ci(numerator, denominator, alpha)`
(source lines 683-733).

The two bisection `while` loops are given a fuel parameter; `none` models
either a propagated exception from `binomial_proportion` or running out of
fuel (the theorems below show fuel 17 always suffices on valid inputs, so
the source loops terminate).  `ratio = numerator/denominator` raises
`ZeroDivisionError` when the denominator is zero, modelled by the leading
guard.
---------------------------------------------------------------------- -/

def bisectLow (den num p : ℚ) : ℕ → ℚ → ℚ → ℚ → Option (ℚ × ℚ × ℚ)
  | 0, v, vsL, vsH =>
    if vsH - vsL > 1 / 100000 then none else some (v, vsL, vsH)
  | fuel + 1, v, vsL, vsH =>
    if vsH - vsL > 1 / 100000 then
      match binomial_proportion den v num den with
      | none => none
      | some t =>
        if t > p then bisectLow den num p fuel ((vsL + v) / 2) vsL v
        else bisectLow den num p fuel ((v + vsH) / 2) v vsH
    else some (v, vsL, vsH)

def bisectHigh (den num p : ℚ) : ℕ → ℚ → ℚ → ℚ → Option (ℚ × ℚ × ℚ)
  | 0, v, vsL, vsH =>
    if vsH - vsL > 1 / 100000 then none else some (v, vsL, vsH)
  | fuel + 1, v, vsL, vsH =>
    if vsH - vsL > 1 / 100000 then
      match binomial_proportion den v 0 num with
      | none => none
      | some t =>
        if t < p then bisectHigh den num p fuel ((vsL + v) / 2) vsL v
        else bisectHigh den num p fuel ((v + vsH) / 2) v vsH
    else some (v, vsL, vsH)

def binomial_proportion_ci (numerator denominator alpha : ℚ) (fuel : ℕ) :
    Option (ℚ × ℚ) :=
  if denominator = 0 then none
  else
    let p := alpha / 2
    let frac := numerator / denominator
    let low? : Option ℚ :=
      if numerator = 0 then some 0
      else (bisectLow denominator numerator p fuel (frac / 2) 0 frac).map
        (fun st => st.1)
    match low? with
    | none => none
    | some lo =>
      let high? : Option ℚ :=
        if numerator = denominator then some 1
        else (bisectHigh denominator numerator p fuel ((1 + frac) / 2) frac 1).map
          (fun st => st.1)
      high?.map (fun hi => (lo, hi))

/- ----------------------------------------------------------------------
Instrumented mirrors of the two bisection loops recording exactly the
probability arguments that are passed to `binomial_proportion` (used to
state the internal-safety claim about the solver's calls).
---------------------------------------------------------------------- -/

def bisectLowCalls (den num p : ℚ) : ℕ → ℚ → ℚ → ℚ → List ℚ
  | 0, _, _, _ => []
  | fuel + 1, v, vsL, vsH =>
    if vsH - vsL > 1 / 100000 then
      v :: (match binomial_proportion den v num den with
        | none => []
        | some t =>
          if t > p then bisectLowCalls den num p fuel ((vsL + v) / 2) vsL v
          else bisectLowCalls den num p fuel ((v + vsH) / 2) v vsH)
    else []

def bisectHighCalls (den num p : ℚ) : ℕ → ℚ → ℚ → ℚ → List ℚ
  | 0, _, _, _ => []
  | fuel + 1, v, vsL, vsH =>
    if vsH - vsL > 1 / 100000 then
      v :: (match binomial_proportion den v 0 num with
        | none => []
        | some t =>
          if t < p then bisectHighCalls den num p fuel ((vsL + v) / 2) vsL v
          else bisectHighCalls den num p fuel ((v + vsH) / 2) v vsH)
    else []

def ciCalls (numerator denominator alpha : ℚ) (fuel : ℕ) : List ℚ :=
  if denominator = 0 then []
  else
    let p := alpha / 2
    let frac := numerator / denominator
    (if numerator = 0 then []
     else bisectLowCalls denominator numerator p fuel (frac / 2) 0 frac) ++
    (if numerator = denominator then []
     else bisectHighCalls denominator numerator p fuel ((1 + frac) / 2) frac 1)

/- ----------------------------------------------------------------------
`get_op_stats(yhat_all, y_all, ..., idx)` (source lines 91-146).

Binary label vectors are `List Bool`.  The runtime type-dispatch on
`y_all` ("numpy array" versus "list of arrays") is modelled by the tagged
`Target` type; a single array is broadcast to one copy per prediction set.
`sklearn.metrics.confusion_matrix` builds its label set from the values
actually present: if only one class occurs in `y ++ yhat`, the matrix is
1x1 and the subsequent `cm[0,1]` indexing raises `IndexError` — modelled by
`confusion` returning `none` (as is a length mismatch or empty input,
which raise `ValueError`).  numpy float division by zero yields NaN, not an
exception; NaN entries are modelled by `none` inside the stats table, with
NaN-propagating arithmetic `oadd`/`osub`/`omul`/`odiv`.
---------------------------------------------------------------------- -/

inductive Target
  | single (y : List Bool)
  | many (ys : List (List Bool))

def applyMask (xs : List Bool) (m : List Bool) : List Bool :=
  ((xs.zip m).filter (fun q => q.2)).map (fun q => q.1)

def countPair (y yhat : List Bool) (a b : Bool) : ℚ :=
  (((y.zip yhat).filter (fun q => q.1 == a && q.2 == b)).length : ℚ)

def confusion (y yhat : List Bool) : Option (ℚ × ℚ × ℚ × ℚ) :=
  if y.length = yhat.length ∧ (y ++ yhat).contains true ∧
      (y ++ yhat).contains false then
    some (countPair y yhat false false, countPair y yhat false true,
          countPair y yhat true false, countPair y yhat true true)
  else none

def oadd : Option ℚ → Option ℚ → Option ℚ
  | some a, some b => some (a + b)
  | _, _ => none

def osub : Option ℚ → Option ℚ → Option ℚ
  | some a, some b => some (a - b)
  | _, _ => none

def omul : Option ℚ → Option ℚ → Option ℚ
  | some a, some b => some (a * b)
  | _, _ => none

def odiv : Option ℚ → Option ℚ → Option ℚ
  | some a, some b => if b = 0 then none else some (a / b)
  | _, _ => none

def op_stats_row (y yhat : List Bool) : Option (List (Option ℚ)) :=
  (confusion y yhat).map (fun c =>
    let TN := c.1
    let FP := c.2.1
    let FN := c.2.2.1
    let TP := c.2.2.2
    let sens := odiv (some (100 * TP)) (some (TP + FN))
    let spec := odiv (some (100 * TN)) (some (TN + FP))
    let ppv := odiv (some (100 * TP)) (some (TP + FP))
    let npv := odiv (some (100 * TN)) (some (TN + FN))
    let f1 := odiv (omul (some 2) (omul ppv sens)) (oadd ppv sens)
    let ntp := omul (odiv (some (100 * (TP + FP))) (some (TP + FP + TN + FN)))
      (odiv ppv (some 100))
    let nfp := omul (odiv (some (100 * (TP + FP))) (some (TP + FP + TN + FN)))
      (osub (some 1) (odiv ppv (some 100)))
    [some TN, some FP, some FN, some TP, sens, spec, ppv, npv, f1, ntp, nfp])

def resolveTargets (yhat_all : List (List Bool)) : Target → List (List Bool)
  | Target.single y => List.replicate yhat_all.length y
  | Target.many ys => ys

def goRows : List (List Bool) → List (List Bool) →
    Option (List (List Bool)) → Option (List (List (Option ℚ)))
  | [], _, _ => some []
  | _ :: _, [], _ => none
  | yhat :: yr, y :: ys, none =>
    (op_stats_row y yhat).bind (fun row =>
      (goRows yr ys none).map (fun rest => row :: rest))
  | _ :: _, _ :: _, some [] => none
  | yhat :: yr, y :: ys, some (m :: ms) =>
    (op_stats_row (applyMask y m) (applyMask yhat m)).bind (fun row =>
      (goRows yr ys (some ms)).map (fun rest => row :: rest))

def get_op_stats (yhat_all : List (List Bool)) (y_all : Target)
    (idx : Option (List (List Bool))) : Option (List (List (Option ℚ))) :=
  goRows yhat_all (resolveTargets yhat_all y_all) idx

/-- A (target, prediction) pair is two-class when the union of its values
contains both labels and the lengths agree: exactly the situation in which
sklearn's confusion matrix is 2x2 and `get_op_stats` computes a row. -/
def pairOK (y yhat : List Bool) : Prop :=
  y.length = yhat.length ∧ (y ++ yhat).contains true = true ∧
    (y ++ yhat).contains false = true

/-- Every (target, prediction) pair evaluated by `get_op_stats` — after
the subgroup mask, when one is supplied — is two-class. -/
def inputOK (yhats ys : List (List Bool)) :
    Option (List (List Bool)) → Prop
  | none => ∀ q ∈ ys.zip yhats, pairOK q.1 q.2
  | some ms => yhats.length ≤ ms.length ∧
      ∀ q ∈ ys.zip (yhats.zip ms),
        pairOK (applyMask q.1 q.2.2) (applyMask q.2.1 q.2.2)

instance decidablePairOK (y yhat : List Bool) : Decidable (pairOK y yhat) :=
  inferInstanceAs (Decidable (_ ∧ _ ∧ _))

instance decidableInputOK (yhats ys : List (List Bool)) :
    (idx : Option (List (List Bool))) → Decidable (inputOK yhats ys idx)
  | none =>
    inferInstanceAs (Decidable (∀ q ∈ ys.zip yhats, pairOK q.1 q.2))
  | some ms =>
    inferInstanceAs (Decidable (_ ∧ ∀ q ∈ ys.zip (yhats.zip ms),
      pairOK (applyMask q.1 q.2.2) (applyMask q.2.1 q.2.2)))

/- ----------------------------------------------------------------------
`cronbach_alpha(X)` and `cronbach_alpha_bootstrap(X, B=1000)`
(source lines 554-571).

`svar` is numpy's ddof=1 sample variance, `mean`/`colSums` its row mean and
`X.sum(axis=0)`.  The pseudo-random draws of
`np.random.randint(0, high=N, size=N)` are abstracted by a function
`rand : ℕ → ℕ → ℕ` giving the i-th index of the b-th resample; the source's
default argument `B=1000` becomes `cronbach_alpha_bootstrap_default`.
`percentile` is numpy's default linear-interpolation percentile on the
sorted data.
---------------------------------------------------------------------- -/

def qmean (xs : List ℚ) : ℚ := xs.sum / (xs.length : ℚ)

def svar (xs : List ℚ) : ℚ :=
  ((xs.map (fun x => (x - qmean xs) ^ 2)).sum) / ((xs.length : ℚ) - 1)

def colSums : List (List ℚ) → List ℚ
  | [] => []
  | [r] => r
  | r :: rs => List.zipWith (· + ·) r (colSums rs)

def cronbach_alpha (X : List (List ℚ)) : ℚ :=
  ((X.length : ℚ) / ((X.length : ℚ) - 1)) *
    (1 - (X.map svar).sum / svar (colSums X))

def insertSorted (x : ℚ) : List ℚ → List ℚ
  | [] => [x]
  | y :: ys => if x ≤ y then x :: y :: ys else y :: insertSorted x ys

def sortQ (xs : List ℚ) : List ℚ := xs.foldr insertSorted []

def percentile (xs : List ℚ) (pc : ℚ) : ℚ :=
  let srt := sortQ xs
  let n := srt.length
  let r := pc / 100 * ((n : ℚ) - 1)
  let i := (⌊r⌋).toNat
  srt.getD i 0 + (r - (i : ℚ)) * (srt.getD (i + 1) 0 - srt.getD i 0)

def bootstrapAlphas (X : List (List ℚ)) (B : ℕ) (rand : ℕ → ℕ → ℕ) :
    List ℚ :=
  let n := (X.headD []).length
  (List.range B).map (fun b =>
    cronbach_alpha (X.map (fun row =>
      (List.range n).map (fun i => row.getD (rand b i) 0))))

def cronbach_alpha_bootstrap (X : List (List ℚ)) (B : ℕ)
    (rand : ℕ → ℕ → ℕ) : ℚ × ℚ × ℚ :=
  (cronbach_alpha X,
   percentile (bootstrapAlphas X B rand) 5,
   percentile (bootstrapAlphas X B rand) 95)

def cronbach_alpha_bootstrap_default (X : List (List ℚ))
    (rand : ℕ → ℕ → ℕ) : ℚ × ℚ × ℚ :=
  cronbach_alpha_bootstrap X 1000 rand

/- ----------------------------------------------------------------------
`print_stats_to_file(filename, yhat_names, stats_all)`
(source lines 200-238).

The opened file is modelled as a trace of written chunks plus a `closed`
flag; `ok = false` records that an exception escaped (leaving the handle
open, since the source has no try/finally).  The CI computations
(lines 206-217) run after `open` and before any write, so a solver failure
aborts with an empty trace and an unreleased handle.  Each header name is
one `headerName` chunk; each data cell is an `intCell`/`decCell` chunk.
The branch for columns 5-7 calls `f.write` with three arguments
(line 232), which raises `TypeError` before anything is written — modelled
by `cellsLoop` aborting at n = 5.
---------------------------------------------------------------------- -/

inductive Chunk
  | lit (s : String)
  | headerName (s : String)
  | rowName (s : String)
  | intCell (v : ℚ)
  | decCell (v : ℚ)
deriving DecidableEq

structure FileRun where
  chunks : List Chunk
  closed : Bool
  ok : Bool
deriving DecidableEq

def statsNamesFile : List String :=
  ["TN", "FP", "FN", "TP", "N", "Sens", "Spec", "PPV", "NPV", "F1",
   "NTP", "NFP"]

def ciStep (row : List ℚ) (fuel : ℕ) : Option (List (ℚ × ℚ)) :=
  let TN := row.getD 0 0
  let FP := row.getD 1 0
  let FN := row.getD 2 0
  let TP := row.getD 3 0
  match binomial_proportion_ci TP (TP + FN) (1 / 20) fuel,
        binomial_proportion_ci TN (TN + FP) (1 / 20) fuel,
        binomial_proportion_ci TP (TP + FP) (1 / 20) fuel,
        binomial_proportion_ci TN (TN + FN) (1 / 20) fuel with
  | some a, some b, some c, some d => some [a, b, c, d]
  | _, _, _, _ => none

def ciAll (stats : List (List ℚ)) (fuel : ℕ) :
    Option (List (List (ℚ × ℚ))) :=
  match stats with
  | [] => some []
  | row :: rest =>
    (ciStep row fuel).bind (fun c =>
      (ciAll rest fuel).map (fun cs => c :: cs))

def cellsLoop (row : List ℚ) : List ℕ → List Chunk × Bool
  | [] => ([], true)
  | n :: rest =>
    if n < 5 then
      let pr := cellsLoop row rest
      (Chunk.intCell (row.getD n 0) :: pr.1, pr.2)
    else if n < 8 then ([], false)
    else
      let pr := cellsLoop row rest
      (Chunk.decCell (row.getD n 0) :: pr.1, pr.2)

def rowsLoop : List String → List (List ℚ) → List Chunk × Bool
  | [], _ => ([], true)
  | nm :: _, [] => ([Chunk.rowName nm], false)
  | nm :: ns, row :: rs =>
    let cells := cellsLoop row (List.range 12)
    if cells.2 then
      let rest := rowsLoop ns rs
      (Chunk.rowName nm :: cells.1 ++ Chunk.lit "\n" :: rest.1, rest.2)
    else (Chunk.rowName nm :: cells.1, false)

def print_stats_to_file (yhat_names : List String)
    (stats : List (List ℚ)) (fuel : ℕ) : FileRun :=
  match ciAll stats fuel with
  | none => { chunks := [], closed := false, ok := false }
  | some _ =>
    let header := Chunk.lit "Subgroup" ::
      (statsNamesFile.map Chunk.headerName) ++ [Chunk.lit "\n"]
    let rows := rowsLoop yhat_names stats
    { chunks := header ++ rows.1, closed := rows.2, ok := rows.2 }

/- ----------------------------------------------------------------------
Partial sums of the binomial recurrence, used to state what the loop of
`binomial_proportion` computes in exact arithmetic.
---------------------------------------------------------------------- -/

def Tq (N : ℕ) (q : ℚ) (m : ℕ) : ℚ :=
  ∑ j in Finset.range m, (N.choose j : ℚ) * q ^ j

def Sq (N x1 x2 : ℕ) (q : ℚ) (m : ℕ) : ℚ :=
  ∑ j in Finset.range m,
    if x1 ≤ j ∧ j ≤ x2 then (N.choose j : ℚ) * q ^ j else 0

/- ======================================================================
Theorems
====================================================================== -/

/-- The bootstrap draws exactly B resamples. -/
theorem bootstrapAlphas_length (X : List (List ℚ)) (B : ℕ)
    (rand : ℕ → ℕ → ℕ) : (bootstrapAlphas X B rand).length = B := by
  unfold bootstrapAlphas
  rw [List.length_map, List.length_range]

/-- The broadcast step of `get_op_stats` (source lines 97-100): a single
target array is replicated once per prediction set before the main loop. -/
theorem get_op_stats_single_eq_replicate (yhat_all : List (List Bool))
    (y : List Bool) (idx : Option (List (List Bool))) :
    get_op_stats yhat_all (Target.single y) idx =
      goRows yhat_all (List.replicate yhat_all.length y) idx := rfl

/-- C5: broadcast of a single target: evaluating two prediction sets against
one target vector gives exactly the same stats table as evaluating them
against two copies of that target. -/
theorem C5_theorem (p1 p2 y : List Bool) (idx : Option (List (List Bool))) :
    get_op_stats [p1, p2] (Target.single y) idx =
      get_op_stats [p1, p2] (Target.many [y, y]) idx := rfl

/-- C4 (amended): `binomial_proportion_ci` performs no argument validation
and has no `InvalidProportion` condition; with denominator 0 the very first
statement `ratio = numerator/denominator` raises `ZeroDivisionError`
(modelled by `none`), for every numerator, alpha and fuel. -/
theorem C4_theorem (num alpha : ℚ) (fuel : ℕ) :
    binomial_proportion_ci num 0 alpha fuel = none := by
  simp [binomial_proportion_ci]

/-- C4 counterexample: with numerator 3 > denominator 2 the function does
not fail at all — both bisection loops run to completion and an interval is
returned, so no `InvalidProportion` (nor any other) failure occurs. -/
theorem C4_counterexample :
    (binomial_proportion_ci 3 2 (1 / 20) 100).isSome = true := by decide

/-- C1 counterexample: the pair (0, 0) satisfies 0 ≤ numerator ≤ denominator
but the call raises `ZeroDivisionError` instead of returning an interval. -/
theorem C1_counterexample :
    binomial_proportion_ci 0 0 (1 / 20) 100 = none := by decide

/-- C8 (amended): the bootstrap returns the point estimate computed on the
original (unresampled) data together with the [5th, 95th] percentiles of
the B bootstrap alphas; it draws exactly B resamples, and the function's
default is B = 1000 (the AUROC table call site passes B = 2000 explicitly). -/
theorem C8_theorem (X : List (List ℚ)) (B : ℕ) (rand : ℕ → ℕ → ℕ) :
    cronbach_alpha_bootstrap X B rand =
      (cronbach_alpha X,
       percentile (bootstrapAlphas X B rand) 5,
       percentile (bootstrapAlphas X B rand) 95) ∧
    (bootstrapAlphas X B rand).length = B ∧
    cronbach_alpha_bootstrap_default X rand =
      cronbach_alpha_bootstrap X 1000 rand :=
  ⟨rfl, bootstrapAlphas_length X B rand, rfl⟩

/-- C8 counterexample: under the source's default argument the bootstrap
draws 1000 resamples, not 2000. -/
theorem C8_counterexample :
    (bootstrapAlphas [[0, 1], [0, 1]] 1000 (fun _ i => i)).length ≠ 2000 := by
  rw [bootstrapAlphas_length]
  omega

/-- C9: the file report is broken and leaks its handle.  With one
prediction name and a well-formed stats row, the writer emits the header,
the row name and the five integer cells, then the rate/CI branch calls
`f.write` with three arguments and raises `TypeError`: the data row is
never completed, no CI is ever rendered, and `f.close()` is never reached.
When the interval solver itself fails (all-zero counts give denominator 0),
the handle is likewise left open with nothing written. -/
theorem C9_theorem :
    (print_stats_to_file ["a"]
      [[1, 1, 1, 1, 50, 50, 50, 50, 50, 25, 25]] 100).closed = false ∧
    (print_stats_to_file ["a"]
      [[1, 1, 1, 1, 50, 50, 50, 50, 50, 25, 25]] 100).ok = false ∧
    print_stats_to_file ["a"] [[0, 0, 0, 0, 0, 0, 0, 0, 0, 0, 0]] 100 =
      { chunks := [], closed := false, ok := false } := by decide

/-- Every pair whose union of values exhibits both classes yields a defined
stats row of the 11 statistics (the NaN-valued entries being defined `none`
cells). -/
theorem op_stats_row_some (y yhat : List Bool) (hok : pairOK y yhat) :
    ∃ row, op_stats_row y yhat = some row ∧ row.length = 11 := by
  have hc : confusion y yhat = some (countPair y yhat false false,
      countPair y yhat false true, countPair y yhat true false,
      countPair y yhat true true) := by
    unfold confusion
    rw [if_pos]
    exact hok
  unfold op_stats_row
  rw [hc, Option.map_some']
  exact ⟨_, rfl, rfl⟩

/-- The main loop of `get_op_stats` without a subgroup mask succeeds
whenever every (target, prediction) pair it evaluates contains both
classes. -/
theorem goRows_some : ∀ (yhats ys : List (List Bool)),
    yhats.length = ys.length →
    (∀ q ∈ ys.zip yhats, pairOK q.1 q.2) →
    ∃ t, goRows yhats ys none = some t ∧ t.length = yhats.length ∧
      ∀ r ∈ t, r.length = 11 := by
  intro yhats
  induction yhats with
  | nil => intro ys _ _; exact ⟨[], rfl, rfl, by simp⟩
  | cons yhat yr ih =>
    intro ys hlen hgood
    match ys with
    | [] => simp at hlen
    | y :: ys' =>
      obtain ⟨row, hrow, hrow11⟩ :=
        op_stats_row_some y yhat (hgood (y, yhat) (by simp))
      obtain ⟨t, ht, htlen, ht11⟩ := ih ys' (by simpa using hlen)
        (fun q hq => hgood q (by simp [hq]))
      refine ⟨row :: t, ?_, by simpa using htlen, ?_⟩
      · simp [goRows, hrow, ht]
      · intro r hr
        rcases List.mem_cons.mp hr with h | h
        · exact h ▸ hrow11
        · exact ht11 r h

/-- The main loop of `get_op_stats` with a subgroup mask per prediction
succeeds whenever every masked (target, prediction) pair contains both
classes. -/
theorem goRows_some_masks : ∀ (yhats ys ms : List (List Bool)),
    yhats.length = ys.length → yhats.length ≤ ms.length →
    (∀ q ∈ ys.zip (yhats.zip ms),
      pairOK (applyMask q.1 q.2.2) (applyMask q.2.1 q.2.2)) →
    ∃ t, goRows yhats ys (some ms) = some t ∧ t.length = yhats.length ∧
      ∀ r ∈ t, r.length = 11 := by
  intro yhats
  induction yhats with
  | nil => intro ys ms _ _ _; exact ⟨[], rfl, rfl, by simp⟩
  | cons yhat yr ih =>
    intro ys ms hlen hms hgood
    match ys, ms with
    | [], _ => simp at hlen
    | _ :: _, [] => simp at hms
    | y :: ys', m :: ms' =>
      obtain ⟨row, hrow, hrow11⟩ := op_stats_row_some (applyMask y m)
        (applyMask yhat m) (hgood (y, yhat, m) (by simp))
      obtain ⟨t, ht, htlen, ht11⟩ := ih ys' ms' (by simpa using hlen)
        (by simpa using hms) (fun q hq => hgood q (by simp [hq]))
      refine ⟨row :: t, ?_, by simpa using htlen, ?_⟩
      · simp [goRows, hrow, ht]
      · intro r hr
        rcases List.mem_cons.mp hr with h | h
        · exact h ▸ hrow11
        · exact ht11 r h

/-- C6 (amended): provided each evaluated (target, prediction) pair —
after the subgroup mask, when one is supplied — has both label values
present in the union of its entries (so sklearn's confusion matrix is
2x2), `get_op_stats` does not crash: it returns a full table with one
11-entry row per prediction set, every undefined derived rate appearing as
a defined NaN (`none`) cell. -/
theorem C6_theorem (yhat_all : List (List Bool)) (tgt : Target)
    (idx : Option (List (List Bool)))
    (hlen : yhat_all.length = (resolveTargets yhat_all tgt).length)
    (hgood : inputOK yhat_all (resolveTargets yhat_all tgt) idx) :
    ∃ t, get_op_stats yhat_all tgt idx = some t ∧
      t.length = yhat_all.length ∧ ∀ r ∈ t, r.length = 11 := by
  cases idx with
  | none =>
    exact goRows_some yhat_all (resolveTargets yhat_all tgt) hlen hgood
  | some ms =>
    exact goRows_some_masks yhat_all (resolveTargets yhat_all tgt) ms
      hlen hgood.1 hgood.2

/-- C6 counterexample: a single-class input (all labels and predictions
false) makes sklearn's confusion matrix 1x1, so the `cm[0,1]` access
raises `IndexError` and `get_op_stats` crashes instead of returning a
table of NaN entries. -/
theorem C6_counterexample :
    get_op_stats [[false, false]] (Target.single [false, false]) none =
      none := by decide

/-- C6 witness: a concrete degenerate-but-two-class input (the prediction
never fires, so TP+FP = 0 and the PPV is NaN) is evaluated without
crashing. -/
theorem C6_witness :
    (get_op_stats [[false, false]] (Target.many [[false, true]])
      none).isSome = true := by
  obtain ⟨t, ht, -, -⟩ := C6_theorem [[false, false]]
    (Target.many [[false, true]]) none (by decide) (by decide)
  rw [ht]; rfl

/-- The running total of the binomial recurrence stays positive: every term
added is nonnegative, the rescaling divides by a positive constant, and the
total is positive as soon as one positive term has been accumulated. -/
theorem bpLoop_tot_pos (N q x1 x2 : ℚ) (hq : 0 < q) :
    ∀ (fuel k : ℕ) (v s tot : ℚ), (k : ℚ) + (fuel : ℚ) ≤ N + 1 → 0 ≤ v →
      0 ≤ tot → (0 < tot ∨ (0 < v ∧ 1 ≤ fuel)) →
      0 < (bpLoop N q x1 x2 fuel k v s tot).2 := by
  intro fuel
  induction fuel with
  | zero =>
    intro k v s tot _ _ _ hd
    rcases hd with h | ⟨-, h⟩
    · simpa [bpLoop] using h
    · omega
  | succ n ih =>
    intro k v s tot hk hv htot hd
    have h1 : 0 < tot + v := by
      rcases hd with h | ⟨h, -⟩ <;> linarith
    have hk1 : ((k + 1 : ℕ) : ℚ) + (n : ℚ) ≤ N + 1 := by
      push_cast
      push_cast at hk
      linarith
    have hkpos : (0 : ℚ) < ((k + 1 : ℕ) : ℚ) := by positivity
    have hfac : (0 : ℚ) ≤ N + 1 - ((k + 1 : ℕ) : ℚ) := by
      push_cast
      push_cast at hk
      have hn : (0 : ℚ) ≤ (n : ℚ) := by positivity
      linarith
    simp only [bpLoop]
    by_cases hE : tot + v > 10 ^ 30
    · rw [if_pos hE, if_pos hE, if_pos hE]
      apply ih (k + 1) _ _ _ hk1
      · have hE30 : (0 : ℚ) < 10 ^ 30 := by norm_num
        positivity
      · positivity
      · left
        have hE30 : (0 : ℚ) < 10 ^ 30 := by norm_num
        positivity
    · rw [if_neg hE, if_neg hE, if_neg hE]
      apply ih (k + 1) _ _ _ hk1
      · positivity
      · positivity
      · left; exact h1

/-- On any probability strictly between 0 and 1 (and nonnegative N) the
binomial tail routine raises no exception: the q-division is defined and
the final total is nonzero. -/
theorem binomial_proportion_some (N p x1 x2 : ℚ) (hp0 : 0 < p)
    (hp1 : p < 1) (hN : 0 ≤ N) :
    ∃ t, binomial_proportion N p x1 x2 = some t := by
  have hne : p ≠ 1 := ne_of_lt hp1
  have h1p : (0 : ℚ) < 1 - p := by linarith
  have hq : 0 < p / (1 - p) := div_pos hp0 h1p
  have hfl : 0 ≤ ⌊N⌋ := Int.floor_nonneg.mpr hN
  have hfuelcast : (((⌊N⌋ + 1).toNat : ℕ) : ℚ) = (⌊N⌋ : ℚ) + 1 := by
    have h : ((⌊N⌋ + 1).toNat : ℤ) = ⌊N⌋ + 1 := Int.toNat_of_nonneg (by omega)
    exact_mod_cast h
  have hfloorle : (⌊N⌋ : ℚ) ≤ N := Int.floor_le N
  have htot : 0 < (bpLoop N (p / (1 - p)) x1 x2 (⌊N⌋ + 1).toNat 0 1 0 0).2 := by
    apply bpLoop_tot_pos N (p / (1 - p)) x1 x2 hq
    · rw [Nat.cast_zero, hfuelcast]
      linarith
    · norm_num
    · norm_num
    · right
      exact ⟨by norm_num, by omega⟩
  refine ⟨(bpLoop N (p / (1 - p)) x1 x2 (⌊N⌋ + 1).toNat 0 1 0 0).1 /
    (bpLoop N (p / (1 - p)) x1 x2 (⌊N⌋ + 1).toNat 0 1 0 0).2, ?_⟩
  simp only [binomial_proportion, if_neg hne, if_neg (ne_of_gt htot)]

/-- The lower bisection loop, started at the midpoint of a bracket inside
[0, 1], terminates within `fuel` halvings (once the initial bracket fits in
`1e-5 * 2 ^ fuel`), returning a point strictly inside a sub-bracket of
width at most 1e-5. -/
theorem bisectLow_spec (den num p : ℚ) (hden : 0 < den) :
    ∀ (fuel : ℕ) (vsL vsH : ℚ), 0 ≤ vsL → vsL < vsH → vsH ≤ 1 →
      vsH - vsL ≤ 1 / 100000 * 2 ^ fuel →
      ∃ out : ℚ × ℚ × ℚ,
        bisectLow den num p fuel ((vsL + vsH) / 2) vsL vsH = some out ∧
        vsL ≤ out.2.1 ∧ out.2.1 < out.1 ∧ out.1 < out.2.2 ∧
        out.2.2 ≤ vsH ∧ out.2.2 - out.2.1 ≤ 1 / 100000 := by
  intro fuel
  induction fuel with
  | zero =>
    intro vsL vsH h0 hlt h1 hbr
    rw [pow_zero, mul_one] at hbr
    have hc : ¬(vsH - vsL > 1 / 100000) := not_lt.mpr hbr
    refine ⟨((vsL + vsH) / 2, vsL, vsH), ?_, le_refl _, by linarith,
      by linarith, le_refl _, hbr⟩
    simp only [bisectLow, if_neg hc]
  | succ n ih =>
    intro vsL vsH h0 hlt h1 hbr
    by_cases hc : vsH - vsL > 1 / 100000
    · have hmid0 : 0 < (vsL + vsH) / 2 := by linarith
      have hmid1 : (vsL + vsH) / 2 < 1 := by linarith
      obtain ⟨t, ht⟩ := binomial_proportion_some den ((vsL + vsH) / 2) num
        den hmid0 hmid1 (le_of_lt hden)
      have hbr2 : (1 : ℚ) / 100000 * 2 ^ (n + 1) = 1 / 100000 * 2 ^ n * 2 := by
        rw [pow_succ]; ring
      simp only [bisectLow, if_pos hc, ht]
      by_cases htp : t > p
      · rw [if_pos htp]
        obtain ⟨out, hout, o1, o2, o3, o4, o5⟩ := ih vsL ((vsL + vsH) / 2)
          h0 (by linarith) (by linarith) (by rw [hbr2] at hbr; linarith)
        exact ⟨out, hout, o1, o2, o3, by linarith, o5⟩
      · rw [if_neg htp]
        obtain ⟨out, hout, o1, o2, o3, o4, o5⟩ := ih ((vsL + vsH) / 2) vsH
          (by linarith) (by linarith) h1 (by rw [hbr2] at hbr; linarith)
        exact ⟨out, hout, by linarith, o2, o3, o4, o5⟩
    · refine ⟨((vsL + vsH) / 2, vsL, vsH), ?_, le_refl _, by linarith,
        by linarith, le_refl _, by linarith⟩
      simp only [bisectLow, if_neg hc]

/-- The upper bisection loop terminates and contracts exactly like the
lower one; only the comparison against the target tail probability differs,
which the bracket argument never uses. -/
theorem bisectHigh_spec (den num p : ℚ) (hden : 0 < den) :
    ∀ (fuel : ℕ) (vsL vsH : ℚ), 0 ≤ vsL → vsL < vsH → vsH ≤ 1 →
      vsH - vsL ≤ 1 / 100000 * 2 ^ fuel →
      ∃ out : ℚ × ℚ × ℚ,
        bisectHigh den num p fuel ((vsL + vsH) / 2) vsL vsH = some out ∧
        vsL ≤ out.2.1 ∧ out.2.1 < out.1 ∧ out.1 < out.2.2 ∧
        out.2.2 ≤ vsH ∧ out.2.2 - out.2.1 ≤ 1 / 100000 := by
  intro fuel
  induction fuel with
  | zero =>
    intro vsL vsH h0 hlt h1 hbr
    rw [pow_zero, mul_one] at hbr
    have hc : ¬(vsH - vsL > 1 / 100000) := not_lt.mpr hbr
    refine ⟨((vsL + vsH) / 2, vsL, vsH), ?_, le_refl _, by linarith,
      by linarith, le_refl _, hbr⟩
    simp only [bisectHigh, if_neg hc]
  | succ n ih =>
    intro vsL vsH h0 hlt h1 hbr
    by_cases hc : vsH - vsL > 1 / 100000
    · have hmid0 : 0 < (vsL + vsH) / 2 := by linarith
      have hmid1 : (vsL + vsH) / 2 < 1 := by linarith
      obtain ⟨t, ht⟩ := binomial_proportion_some den ((vsL + vsH) / 2) 0
        num hmid0 hmid1 (le_of_lt hden)
      have hbr2 : (1 : ℚ) / 100000 * 2 ^ (n + 1) = 1 / 100000 * 2 ^ n * 2 := by
        rw [pow_succ]; ring
      simp only [bisectHigh, if_pos hc, ht]
      by_cases htp : t < p
      · rw [if_pos htp]
        obtain ⟨out, hout, o1, o2, o3, o4, o5⟩ := ih vsL ((vsL + vsH) / 2)
          h0 (by linarith) (by linarith) (by rw [hbr2] at hbr; linarith)
        exact ⟨out, hout, o1, o2, o3, by linarith, o5⟩
      · rw [if_neg htp]
        obtain ⟨out, hout, o1, o2, o3, o4, o5⟩ := ih ((vsL + vsH) / 2) vsH
          (by linarith) (by linarith) h1 (by rw [hbr2] at hbr; linarith)
        exact ⟨out, hout, by linarith, o2, o3, o4, o5⟩
    · refine ⟨((vsL + vsH) / 2, vsL, vsH), ?_, le_refl _, by linarith,
        by linarith, le_refl _, by linarith⟩
      simp only [bisectHigh, if_neg hc]

/-- 17 halvings bring any bracket of width at most 1 below the 1e-5
tolerance. -/
theorem tol_pow_ge_one (fuel : ℕ) (hf : 17 ≤ fuel) :
    (1 : ℚ) ≤ 1 / 100000 * 2 ^ fuel := by
  have h17 : (2 : ℚ) ^ 17 ≤ 2 ^ fuel := pow_le_pow_right₀ (by norm_num) hf
  calc (1 : ℚ) ≤ 1 / 100000 * 2 ^ 17 := by norm_num
    _ ≤ 1 / 100000 * 2 ^ fuel := by linarith

/-- On a valid proportion (0 ≤ numerator ≤ denominator, denominator > 0)
and fuel at least 17, the solver returns an interval bracketing the point
estimate within [0, 1]. -/
theorem ci_valid (num den : ℚ) (fuel : ℕ) (h0 : 0 ≤ num) (h1 : num ≤ den)
    (h2 : 0 < den) (hf : 17 ≤ fuel) :
    ∃ lo hi, binomial_proportion_ci num den (1 / 20) fuel = some (lo, hi) ∧
      0 ≤ lo ∧ lo ≤ num / den ∧ num / den ≤ hi ∧ hi ≤ 1 := by
  have hdne : den ≠ 0 := ne_of_gt h2
  have hfr0 : 0 ≤ num / den := div_nonneg h0 (le_of_lt h2)
  have hfr1 : num / den ≤ 1 := (div_le_one h2).mpr h1
  have hpow : (1 : ℚ) ≤ 1 / 100000 * 2 ^ fuel := tol_pow_ge_one fuel hf
  by_cases hn0 : num = 0
  · have hnd : ¬(num = den) := fun h => hdne (by rw [← h, hn0])
    have hfrlt1 : num / den < 1 := by
      rw [hn0, zero_div]; norm_num
    have hmidH : (1 + num / den) / 2 = (num / den + 1) / 2 := by ring
    obtain ⟨out, hout, o1, o2, o3, o4, o5⟩ := bisectHigh_spec den num
      (1 / 20 / 2) h2 fuel (num / den) 1 hfr0 hfrlt1 le_rfl
      (by linarith)
    refine ⟨0, out.1, ?_, le_refl 0, hfr0, by linarith, by linarith⟩
    simp only [binomial_proportion_ci, if_neg hdne, if_pos hn0,
      if_neg hnd, hmidH, hout, Option.map_some']
  · have hnum : 0 < num := lt_of_le_of_ne h0 (Ne.symm hn0)
    have hfrpos : 0 < num / den := div_pos hnum h2
    have hmidL : num / den / 2 = (0 + num / den) / 2 := by ring
    obtain ⟨outL, houtL, l1, l2, l3, l4, l5⟩ := bisectLow_spec den num
      (1 / 20 / 2) h2 fuel 0 (num / den) le_rfl hfrpos hfr1
      (by rw [sub_zero]; linarith)
    by_cases hnd : num = den
    · have hfr : num / den = 1 := by rw [hnd]; exact div_self hdne
      refine ⟨outL.1, 1, ?_, by linarith, by linarith, by linarith,
        le_refl 1⟩
      simp only [binomial_proportion_ci, if_neg hdne, if_neg hn0, hmidL,
        houtL, Option.map_some', if_pos hnd]
    · have hfrlt1 : num / den < 1 :=
        (div_lt_one h2).mpr (lt_of_le_of_ne h1 hnd)
      have hmidH : (1 + num / den) / 2 = (num / den + 1) / 2 := by ring
      obtain ⟨outH, houtH, u1, u2, u3, u4, u5⟩ := bisectHigh_spec den num
        (1 / 20 / 2) h2 fuel (num / den) 1 hfr0 hfrlt1 le_rfl
        (by linarith)
      refine ⟨outL.1, outH.1, ?_, by linarith, by linarith, by linarith,
        by linarith⟩
      simp only [binomial_proportion_ci, if_neg hdne, if_neg hn0, hmidL,
        houtL, Option.map_some', if_neg hnd, hmidH, houtH]

/-- C1 (amended): for every proportion with 0 ≤ numerator ≤ denominator and
denominator > 0 (the source raises `ZeroDivisionError` when the denominator
is 0), the returned interval (low, high) satisfies
low ≤ numerator/denominator ≤ high with both bounds in [0, 1]; fuel 17
suffices for both bisection loops. -/
theorem C1_theorem (num den : ℚ) (fuel : ℕ) (h0 : 0 ≤ num) (h1 : num ≤ den)
    (h2 : 0 < den) (hf : 17 ≤ fuel) :
    ∃ lo hi, binomial_proportion_ci num den (1 / 20) fuel = some (lo, hi) ∧
      0 ≤ lo ∧ lo ≤ num / den ∧ num / den ≤ hi ∧ hi ≤ 1 :=
  ci_valid num den fuel h0 h1 h2 hf

/-- C1 witness: the 95% interval for 1/2 exists and brackets 1/2 inside
[0, 1]. -/
theorem C1_witness :
    ∃ lo hi, binomial_proportion_ci 1 2 (1 / 20) 17 = some (lo, hi) ∧
      0 ≤ lo ∧ lo ≤ 1 / 2 ∧ 1 / 2 ≤ hi ∧ hi ≤ 1 := by
  have h := C1_theorem 1 2 17 (by norm_num) (by norm_num) (by norm_num)
    (le_refl 17)
  norm_num at h ⊢
  exact h

/-- C3: on valid inputs (0 ≤ numerator ≤ denominator, denominator > 0) both
bisection loops of `binomial_proportion_ci` terminate within 17 iterations
(each iteration halves the bracket), each exiting with final bracket width
vsH - vsL at most 1e-5, and the whole solver returns a value — it is total
on such inputs. -/
theorem C3_theorem (num den : ℚ) (fuel : ℕ) (h0 : 0 ≤ num) (h1 : num ≤ den)
    (h2 : 0 < den) (hf : 17 ≤ fuel) :
    (num ≠ 0 → ∃ out : ℚ × ℚ × ℚ,
      bisectLow den num (1 / 20 / 2) fuel (num / den / 2) 0 (num / den) =
        some out ∧ out.2.2 - out.2.1 ≤ 1 / 100000) ∧
    (num ≠ den → ∃ out : ℚ × ℚ × ℚ,
      bisectHigh den num (1 / 20 / 2) fuel ((1 + num / den) / 2)
        (num / den) 1 = some out ∧ out.2.2 - out.2.1 ≤ 1 / 100000) ∧
    (binomial_proportion_ci num den (1 / 20) fuel).isSome = true := by
  have hfr0 : 0 ≤ num / den := div_nonneg h0 (le_of_lt h2)
  have hfr1 : num / den ≤ 1 := (div_le_one h2).mpr h1
  have hpow : (1 : ℚ) ≤ 1 / 100000 * 2 ^ fuel := tol_pow_ge_one fuel hf
  refine ⟨?_, ?_, ?_⟩
  · intro hn0
    have hnum : 0 < num := lt_of_le_of_ne h0 (Ne.symm hn0)
    have hfrpos : 0 < num / den := div_pos hnum h2
    have hmidL : num / den / 2 = (0 + num / den) / 2 := by ring
    obtain ⟨out, hout, -, -, -, -, o5⟩ := bisectLow_spec den num
      (1 / 20 / 2) h2 fuel 0 (num / den) le_rfl hfrpos hfr1
      (by rw [sub_zero]; linarith)
    exact ⟨out, by rw [hmidL]; exact hout, o5⟩
  · intro hnd
    have hfrlt1 : num / den < 1 :=
      (div_lt_one h2).mpr (lt_of_le_of_ne h1 hnd)
    have hmidH : (1 + num / den) / 2 = (num / den + 1) / 2 := by ring
    obtain ⟨out, hout, -, -, -, -, o5⟩ := bisectHigh_spec den num
      (1 / 20 / 2) h2 fuel (num / den) 1 hfr0 hfrlt1 le_rfl
      (by linarith)
    exact ⟨out, by rw [hmidH]; exact hout, o5⟩
  · obtain ⟨lo, hi, heq, -⟩ := ci_valid num den fuel h0 h1 h2 hf
    rw [heq]
    rfl

/-- C3 witness: the solver is defined at the concrete proportion 1/2 with
exactly 17 iterations of fuel. -/
theorem C3_witness :
    (binomial_proportion_ci 1 2 (1 / 20) 17).isSome = true :=
  (C3_theorem 1 2 17 (by norm_num) (by norm_num) (by norm_num)
    (le_refl 17)).2.2

/-- Every probability the lower bisection loop passes to
`binomial_proportion` lies strictly inside its bracket, which stays inside
[0, 1]. -/
theorem bisectLowCalls_mem (den num p : ℚ) :
    ∀ (fuel : ℕ) (vsL vsH : ℚ), 0 ≤ vsL → vsL < vsH → vsH ≤ 1 →
      ∀ w ∈ bisectLowCalls den num p fuel ((vsL + vsH) / 2) vsL vsH,
        0 < w ∧ w < 1 := by
  intro fuel
  induction fuel with
  | zero => intro vsL vsH _ _ _ w hw; simp [bisectLowCalls] at hw
  | succ n ih =>
    intro vsL vsH h0 hlt h1 w hw
    by_cases hc : vsH - vsL > 1 / 100000
    · rw [bisectLowCalls, if_pos hc] at hw
      rcases List.mem_cons.mp hw with h | h
      · subst h
        constructor <;> linarith
      · rcases hbp : binomial_proportion den ((vsL + vsH) / 2) num den with
          - | t
        · rw [hbp] at h
          simp at h
        · rw [hbp] at h
          simp only [] at h
          by_cases htp : t > p
          · rw [if_pos htp] at h
            exact ih vsL ((vsL + vsH) / 2) h0 (by linarith) (by linarith) w h
          · rw [if_neg htp] at h
            exact ih ((vsL + vsH) / 2) vsH (by linarith) (by linarith) h1 w h
    · rw [bisectLowCalls, if_neg hc] at hw
      simp at hw

/-- Every probability the upper bisection loop passes to
`binomial_proportion` lies strictly inside its bracket, which stays inside
[0, 1]. -/
theorem bisectHighCalls_mem (den num p : ℚ) :
    ∀ (fuel : ℕ) (vsL vsH : ℚ), 0 ≤ vsL → vsL < vsH → vsH ≤ 1 →
      ∀ w ∈ bisectHighCalls den num p fuel ((vsL + vsH) / 2) vsL vsH,
        0 < w ∧ w < 1 := by
  intro fuel
  induction fuel with
  | zero => intro vsL vsH _ _ _ w hw; simp [bisectHighCalls] at hw
  | succ n ih =>
    intro vsL vsH h0 hlt h1 w hw
    by_cases hc : vsH - vsL > 1 / 100000
    · rw [bisectHighCalls, if_pos hc] at hw
      rcases List.mem_cons.mp hw with h | h
      · subst h
        constructor <;> linarith
      · rcases hbp : binomial_proportion den ((vsL + vsH) / 2) 0 num with
          - | t
        · rw [hbp] at h
          simp at h
        · rw [hbp] at h
          simp only [] at h
          by_cases htp : t < p
          · rw [if_pos htp] at h
            exact ih vsL ((vsL + vsH) / 2) h0 (by linarith) (by linarith) w h
          · rw [if_neg htp] at h
            exact ih ((vsL + vsH) / 2) vsH (by linarith) (by linarith) h1 w h
    · rw [bisectHighCalls, if_neg hc] at hw
      simp at hw

/-- C10: on valid inputs every probability argument that
`binomial_proportion_ci` passes to `binomial_proportion` is strictly
between 0 and 1 (the lower loop searches inside (0, ratio], the upper loop
inside [ratio, 1)), so the internal expression q = p/(1-p) never divides by
zero. -/
theorem C10_theorem (num den : ℚ) (fuel : ℕ) (h0 : 0 ≤ num)
    (h1 : num ≤ den) (h2 : 0 < den) :
    ∀ w ∈ ciCalls num den (1 / 20) fuel, (0 < w ∧ w < 1) ∧ 1 - w ≠ 0 := by
  have hdne : den ≠ 0 := ne_of_gt h2
  have hfr0 : 0 ≤ num / den := div_nonneg h0 (le_of_lt h2)
  have hfr1 : num / den ≤ 1 := (div_le_one h2).mpr h1
  intro w hw
  rw [ciCalls, if_neg hdne] at hw
  have hmem : (0 < w ∧ w < 1) := by
    rcases List.mem_append.mp hw with h | h
    · by_cases hn0 : num = 0
      · rw [if_pos hn0] at h
        simp at h
      · rw [if_neg hn0] at h
        have hnum : 0 < num := lt_of_le_of_ne h0 (Ne.symm hn0)
        have hfrpos : 0 < num / den := div_pos hnum h2
        have hmidL : num / den / 2 = (0 + num / den) / 2 := by ring
        rw [hmidL] at h
        exact bisectLowCalls_mem den num (1 / 20 / 2) fuel 0 (num / den)
          le_rfl hfrpos hfr1 w h
    · by_cases hnd : num = den
      · rw [if_pos hnd] at h
        simp at h
      · rw [if_neg hnd] at h
        have hfrlt1 : num / den < 1 :=
          (div_lt_one h2).mpr (lt_of_le_of_ne h1 hnd)
        have hmidH : (1 + num / den) / 2 = (num / den + 1) / 2 := by ring
        rw [hmidH] at h
        exact bisectHighCalls_mem den num (1 / 20 / 2) fuel (num / den) 1
          hfr0 hfrlt1 le_rfl w h
  exact ⟨hmem, by intro hz; linarith [hmem.2]⟩

/-- C10 witness: with one unit of fuel the two loops issue exactly their
first probe each; the probe 1/4 of the lower loop is strictly inside
(0, 1) and 1 - 1/4 is nonzero. -/
theorem C10_witness :
    ((0 : ℚ) < 1 / 4 ∧ (1 / 4 : ℚ) < 1) ∧ (1 : ℚ) - 1 / 4 ≠ 0 :=
  C10_theorem 1 2 1 (by norm_num) (by norm_num) (by norm_num) (1 / 4)
    (by decide)

/-- The empty partial sum of the selected terms. -/
theorem Sq_zero (N x1 x2 : ℕ) (q : ℚ) : Sq N x1 x2 q 0 = 0 := by
  simp [Sq]

/-- The empty partial sum of all terms. -/
theorem Tq_zero (N : ℕ) (q : ℚ) : Tq N q 0 = 0 := by
  simp [Tq]

/-- For positive q the full sum of binomial-weighted powers is positive
(its first term is 1). -/
theorem Tq_pos (N : ℕ) (q : ℚ) (hq : 0 < q) : 0 < Tq N q (N + 1) := by
  unfold Tq
  apply Finset.sum_pos'
  · intro i _
    positivity
  · refine ⟨0, Finset.mem_range.mpr (Nat.succ_pos N), ?_⟩
    norm_num

/-- What the accumulation loop of `binomial_proportion` computes in exact
arithmetic: starting from the k-th state scaled by any positive constant c,
it ends with the full selected sum and the full total, both scaled by a
common positive constant (the 10^30 rescalings only change the scale). -/
theorem bpLoop_spec (N x1 x2 : ℕ) (q : ℚ) :
    ∀ (fuel k : ℕ) (c : ℚ), 0 < c → fuel + k = N + 1 →
    ∃ c', 0 < c' ∧
      bpLoop (N : ℚ) q (x1 : ℚ) (x2 : ℚ) fuel k
        (c * ((N.choose k : ℚ) * q ^ k)) (c * Sq N x1 x2 q k)
        (c * Tq N q k) =
      (c' * Sq N x1 x2 q (N + 1), c' * Tq N q (N + 1)) := by
  intro fuel
  induction fuel with
  | zero =>
    intro k c hc hk
    have hkeq : k = N + 1 := by omega
    subst hkeq
    exact ⟨c, hc, by simp [bpLoop]⟩
  | succ n ih =>
    intro k c hc hk
    have hkN : k ≤ N := by omega
    have hcast1 : ((k + 1 : ℕ) : ℚ) = (k : ℚ) + 1 := by push_cast; ring
    have hk1ne : ((k : ℚ) + 1) ≠ 0 := by positivity
    have hchoose : (N.choose (k + 1) : ℚ) * ((k : ℚ) + 1) =
        (N.choose k : ℚ) * ((N : ℚ) - (k : ℚ)) := by
      have h := Nat.choose_succ_right_eq N k
      have h2 : ((N.choose (k + 1) * (k + 1) : ℕ) : ℚ) =
          ((N.choose k * (N - k) : ℕ) : ℚ) := by exact_mod_cast h
      push_cast [Nat.cast_sub hkN] at h2
      exact h2
    have hterm : (N.choose k : ℚ) * q ^ k * q * ((N : ℚ) - (k : ℚ)) /
        ((k : ℚ) + 1) = (N.choose (k + 1) : ℚ) * q ^ (k + 1) := by
      rw [div_eq_iff hk1ne, pow_succ]
      linear_combination (-(q ^ k * q)) * hchoose
    have htot1 : c * Tq N q k + c * ((N.choose k : ℚ) * q ^ k) =
        c * Tq N q (k + 1) := by
      simp only [Tq, Finset.sum_range_succ]
      ring
    have hcond : ((x1 : ℚ) ≤ (k : ℚ) ∧ (k : ℚ) ≤ (x2 : ℚ)) ↔
        (x1 ≤ k ∧ k ≤ x2) := by
      constructor <;> intro h <;>
        exact ⟨by exact_mod_cast h.1, by exact_mod_cast h.2⟩
    have hs1 : (if (x1 : ℚ) ≤ (k : ℚ) ∧ (k : ℚ) ≤ (x2 : ℚ) then
        c * Sq N x1 x2 q k + c * ((N.choose k : ℚ) * q ^ k)
        else c * Sq N x1 x2 q k) = c * Sq N x1 x2 q (k + 1) := by
      simp only [Sq, Finset.sum_range_succ]
      by_cases hx : x1 ≤ k ∧ k ≤ x2
      · rw [if_pos (hcond.mpr hx), if_pos hx]
        ring
      · rw [if_neg (fun hh => hx (hcond.mp hh)), if_neg hx]
        ring
    simp only [bpLoop]
    rw [htot1, hs1]
    by_cases hE : c * Tq N q (k + 1) > 10 ^ 30
    · rw [if_pos hE, if_pos hE, if_pos hE]
      have hv : c * ((N.choose k : ℚ) * q ^ k) / 10 ^ 30 * q *
          ((N : ℚ) + 1 - ((k + 1 : ℕ) : ℚ)) / ((k + 1 : ℕ) : ℚ) =
          c / 10 ^ 30 * ((N.choose (k + 1) : ℚ) * q ^ (k + 1)) := by
        rw [hcast1, ← hterm]
        ring
      have hsv : c * Sq N x1 x2 q (k + 1) / 10 ^ 30 =
          c / 10 ^ 30 * Sq N x1 x2 q (k + 1) := by ring
      have htv : c * Tq N q (k + 1) / 10 ^ 30 =
          c / 10 ^ 30 * Tq N q (k + 1) := by ring
      rw [hv, hsv, htv]
      exact ih (k + 1) (c / 10 ^ 30) (by positivity) (by omega)
    · rw [if_neg hE, if_neg hE, if_neg hE]
      have hv : c * ((N.choose k : ℚ) * q ^ k) * q *
          ((N : ℚ) + 1 - ((k + 1 : ℕ) : ℚ)) / ((k + 1 : ℕ) : ℚ) =
          c * ((N.choose (k + 1) : ℚ) * q ^ (k + 1)) := by
        rw [hcast1, ← hterm]
        ring
      rw [hv]
      exact ih (k + 1) c hc (by omega)

/-- In exact arithmetic `binomial_proportion` on a natural N and
probability strictly inside (0, 1) returns the ratio of the selected
partial sum to the full binomial-weighted sum. -/
theorem binomial_proportion_eq (N x1 x2 : ℕ) (p : ℚ) (hp0 : 0 < p)
    (hp1 : p < 1) :
    binomial_proportion (N : ℚ) p (x1 : ℚ) (x2 : ℚ) =
      some (Sq N x1 x2 (p / (1 - p)) (N + 1) / Tq N (p / (1 - p)) (N + 1)) := by
  have hne : p ≠ 1 := ne_of_lt hp1
  have h1p : (0 : ℚ) < 1 - p := by linarith
  have hq : 0 < p / (1 - p) := div_pos hp0 h1p
  have hfuel : (⌊((N : ℕ) : ℚ)⌋ + 1).toNat = N + 1 := by
    rw [Int.floor_natCast]
    omega
  have hTpos : 0 < Tq N (p / (1 - p)) (N + 1) := Tq_pos N _ hq
  obtain ⟨c', hc', heq⟩ := bpLoop_spec N x1 x2 (p / (1 - p)) (N + 1) 0 1
    one_pos (by omega)
  simp only [Nat.choose_zero_right, Nat.cast_one, pow_zero, mul_one,
    one_mul, Sq_zero, Tq_zero, mul_zero] at heq
  have htne : c' * Tq N (p / (1 - p)) (N + 1) ≠ 0 :=
    mul_ne_zero (ne_of_gt hc') (ne_of_gt hTpos)
  simp only [binomial_proportion, if_neg hne, hfuel, heq, if_neg htne,
    mul_div_mul_left _ _ (ne_of_gt hc')]

/-- The full binomial-weighted sum is the binomial expansion of
(q + 1)^N = (1/(1-p))^N. -/
theorem Tq_eq_pow (N : ℕ) (p : ℚ) (h1pne : (1 : ℚ) - p ≠ 0) :
    Tq N (p / (1 - p)) (N + 1) = (1 / (1 - p)) ^ N := by
  have hq1 : p / (1 - p) + 1 = 1 / (1 - p) := by field_simp
  rw [← hq1]
  unfold Tq
  rw [add_pow]
  apply Finset.sum_congr rfl
  intro j _
  rw [one_pow]
  ring

/-- For x2 ≤ N the selected partial sum ranges exactly over [x1, x2]. -/
theorem Sq_eq_Icc (N x1 x2 : ℕ) (q : ℚ) (h2N : x2 ≤ N) :
    Sq N x1 x2 q (N + 1) =
      ∑ j in Finset.Icc x1 x2, (N.choose j : ℚ) * q ^ j := by
  unfold Sq
  rw [← Finset.sum_filter]
  congr 1
  ext j
  simp only [Finset.mem_filter, Finset.mem_range, Finset.mem_Icc]
  omega

/-- C2: for every natural N, probability p strictly between 0 and 1, and
integers 0 ≤ x1 ≤ x2 ≤ N, the recurrence of `binomial_proportion` with its
10^30 rescaling, evaluated in exact arithmetic, returns exactly
P(x1 ≤ X ≤ x2) for X ~ Binomial(N, p). -/
theorem C2_theorem (N x1 x2 : ℕ) (p : ℚ) (hp0 : 0 < p) (hp1 : p < 1)
    (h12 : x1 ≤ x2) (h2N : x2 ≤ N) :
    binomial_proportion (N : ℚ) p (x1 : ℚ) (x2 : ℚ) =
      some (∑ k in Finset.Icc x1 x2,
        (N.choose k : ℚ) * p ^ k * (1 - p) ^ (N - k)) := by
  have h1p : (0 : ℚ) < 1 - p := by linarith
  have h1pne : (1 : ℚ) - p ≠ 0 := ne_of_gt h1p
  rw [binomial_proportion_eq N x1 x2 p hp0 hp1]
  congr 1
  rw [Tq_eq_pow N p h1pne, Sq_eq_Icc N x1 x2 _ h2N]
  rw [one_div, inv_pow, div_eq_mul_inv, inv_inv, Finset.sum_mul]
  apply Finset.sum_congr rfl
  intro j hj
  have hjN : j ≤ N := le_trans (Finset.mem_Icc.mp hj).2 h2N
  rw [div_pow]
  have hsplit : (1 - p) ^ N = (1 - p) ^ j * (1 - p) ^ (N - j) := by
    rw [← pow_add]
    congr 1
    omega
  rw [hsplit]
  have hpj : ((1 : ℚ) - p) ^ j ≠ 0 := pow_ne_zero _ h1pne
  field_simp
  ring

/-- C2 witness: for two Bernoulli(1/2) trials the probability of at most
one success is returned exactly. -/
theorem C2_witness :
    (0 : ℚ) < 1 / 2 ∧ (1 : ℚ) / 2 < 1 ∧
    binomial_proportion ((2 : ℕ) : ℚ) (1 / 2) ((0 : ℕ) : ℚ) ((1 : ℕ) : ℚ) =
      some (∑ k in Finset.Icc 0 1,
        ((2 : ℕ).choose k : ℚ) * (1 / 2) ^ k * (1 - 1 / 2) ^ (2 - k)) :=
  ⟨by norm_num, by norm_num,
    C2_theorem 2 0 1 (1 / 2) (by norm_num) (by norm_num) (by norm_num)
      (by norm_num)⟩

/-- Sorted insertion adds one element. -/
theorem insertSorted_length (x : ℚ) :
    ∀ l : List ℚ, (insertSorted x l).length = l.length + 1 := by
  intro l
  induction l with
  | nil => rfl
  | cons y ys ih =>
    unfold insertSorted
    by_cases h : x ≤ y
    · rw [if_pos h]
      rfl
    · rw [if_neg h]
      simp [ih]

/-- Sorting preserves length. -/
theorem sortQ_length (xs : List ℚ) : (sortQ xs).length = xs.length := by
  induction xs with
  | nil => rfl
  | cons a t ih =>
    show (insertSorted a (sortQ t)).length = t.length + 1
    rw [insertSorted_length, ih]

/-- Sorted insertion introduces no new elements. -/
theorem mem_insertSorted (x a : ℚ) :
    ∀ l : List ℚ, a ∈ insertSorted x l → a = x ∨ a ∈ l := by
  intro l
  induction l with
  | nil =>
    intro h
    simp [insertSorted] at h
    exact Or.inl h
  | cons y ys ih =>
    intro h
    unfold insertSorted at h
    by_cases hxy : x ≤ y
    · rw [if_pos hxy] at h
      rcases List.mem_cons.mp h with h1 | h1
      · exact Or.inl h1
      · exact Or.inr h1
    · rw [if_neg hxy] at h
      rcases List.mem_cons.mp h with h1 | h1
      · exact Or.inr (h1 ▸ List.mem_cons_self y ys)
      · rcases ih h1 with h2 | h2
        · exact Or.inl h2
        · exact Or.inr (List.mem_cons_of_mem y h2)

/-- Sorting introduces no new elements. -/
theorem mem_sortQ (a : ℚ) : ∀ xs : List ℚ, a ∈ sortQ xs → a ∈ xs := by
  intro xs
  induction xs with
  | nil => intro h; simp [sortQ] at h
  | cons y ys ih =>
    intro h
    rcases mem_insertSorted y a (sortQ ys) h with h1 | h1
    · exact h1 ▸ List.mem_cons_self y ys
    · exact List.mem_cons_of_mem y (ih h1)

/-- Indexing with default into a constant list inside bounds gives the
constant. -/
theorem getD_const (c : ℚ) :
    ∀ (l : List ℚ) (i : ℕ), (∀ a ∈ l, a = c) → i < l.length →
      l.getD i 0 = c := by
  intro l
  induction l with
  | nil => intro i _ h; simp at h
  | cons y ys ih =>
    intro i hall hi
    cases i with
    | zero => simpa using hall y (List.mem_cons_self y ys)
    | succ j =>
      rw [List.getD_cons_succ]
      exact ih j (fun a ha => hall a (List.mem_cons_of_mem y ha))
        (by simpa using hi)

/-- numpy's linear-interpolation percentile of a constant nonempty sample
is that constant, for any percentile strictly below 100. -/
theorem percentile_const (xs : List ℚ) (c pc : ℚ) (hne : xs ≠ [])
    (hall : ∀ a ∈ xs, a = c) (h0 : 0 ≤ pc) (h100 : pc < 100) :
    percentile xs pc = c := by
  have hlen : (sortQ xs).length = xs.length := sortQ_length xs
  have hsall : ∀ a ∈ sortQ xs, a = c := fun a ha => hall a (mem_sortQ a xs ha)
  have hn1 : 1 ≤ xs.length := List.length_pos.mpr hne
  unfold percentile
  simp only []
  rw [hlen]
  by_cases hone : xs.length = 1
  · rw [hone]
    have hr : pc / 100 * (((1 : ℕ) : ℚ) - 1) = 0 := by norm_num
    rw [hr]
    have hi : (⌊(0 : ℚ)⌋).toNat = 0 := by norm_num
    rw [hi]
    have hg0 : (sortQ xs).getD 0 0 = c :=
      getD_const c (sortQ xs) 0 hsall (by omega)
    rw [hg0]
    norm_num
  · have hn2 : 2 ≤ xs.length := by omega
    have hnpos : (0 : ℚ) < (xs.length : ℚ) - 1 := by
      have : (2 : ℚ) ≤ (xs.length : ℚ) := by exact_mod_cast hn2
      linarith
    have hpc1 : pc / 100 < 1 := (div_lt_one (by norm_num)).mpr h100
    have hr0 : 0 ≤ pc / 100 * ((xs.length : ℚ) - 1) :=
      mul_nonneg (by positivity) (le_of_lt hnpos)
    have hrlt : pc / 100 * ((xs.length : ℚ) - 1) < (xs.length : ℚ) - 1 := by
      nlinarith
    have hfl0 : 0 ≤ ⌊pc / 100 * ((xs.length : ℚ) - 1)⌋ :=
      Int.floor_nonneg.mpr hr0
    have hflt : ⌊pc / 100 * ((xs.length : ℚ) - 1)⌋ < (xs.length : ℤ) - 1 := by
      rw [Int.floor_lt]
      push_cast
      exact hrlt
    have hi1 : (⌊pc / 100 * ((xs.length : ℚ) - 1)⌋).toNat + 1 < xs.length := by
      omega
    have hg0 : (sortQ xs).getD
        (⌊pc / 100 * ((xs.length : ℚ) - 1)⌋).toNat 0 = c :=
      getD_const c (sortQ xs) _ hsall (by omega)
    have hg1 : (sortQ xs).getD
        ((⌊pc / 100 * ((xs.length : ℚ) - 1)⌋).toNat + 1) 0 = c :=
      getD_const c (sortQ xs) _ hsall (by omega)
    rw [hg0, hg1]
    ring

/-- Summing the squared deviations of the doubled data quadruples the sum
of squared deviations. -/
theorem sum_sq_double (m : ℚ) :
    ∀ x : List ℚ, (x.map (fun a => (a + a - 2 * m) ^ 2)).sum =
      4 * (x.map (fun a => (a - m) ^ 2)).sum := by
  intro x
  induction x with
  | nil => simp
  | cons a t ih =>
    simp only [List.map_cons, List.sum_cons, ih]
    ring

/-- Doubling every observation doubles the sum. -/
theorem sum_map_double : ∀ x : List ℚ,
    (x.map (fun a => a + a)).sum = 2 * x.sum := by
  intro x
  induction x with
  | nil => simp
  | cons a t ih =>
    simp only [List.map_cons, List.sum_cons, ih]
    ring

/-- Doubling every observation multiplies the ddof=1 sample variance by 4. -/
theorem svar_double (x : List ℚ) :
    svar (List.zipWith (· + ·) x x) = 4 * svar x := by
  have hz : List.zipWith (· + ·) x x = x.map (fun a => a + a) :=
    List.zipWith_same _ x
  have hsum : (x.map (fun a => a + a)).sum = 2 * x.sum := sum_map_double x
  have hlen : (x.map (fun a => a + a)).length = x.length :=
    List.length_map x _
  have hmean : qmean (x.map (fun a => a + a)) = 2 * qmean x := by
    unfold qmean
    rw [hsum, hlen]
    ring
  unfold svar
  rw [hz, hmean, hlen, List.map_map]
  have hcomp : ((fun y => (y - 2 * qmean x) ^ 2) ∘ fun a => a + a) =
      fun a => (a + a - 2 * qmean x) ^ 2 := by
    funext a
    simp [Function.comp]
  rw [hcomp, sum_sq_double (qmean x) x]
  ring

/-- Cronbach's alpha of a two-row matrix is the K = 2 instance of the
formula K/(K-1) * (1 - sum of row variances / variance of column sums). -/
theorem cronbach_alpha_two (x1 x2 : List ℚ) :
    cronbach_alpha [x1, x2] =
      (2 : ℚ) / (2 - 1) *
        (1 - (svar x1 + svar x2) / svar (List.zipWith (· + ·) x1 x2)) := by
  unfold cronbach_alpha
  have hcol : colSums [x1, x2] = List.zipWith (· + ·) x1 x2 := rfl
  rw [hcol]
  simp only [List.length_cons, List.length_nil, List.map_cons, List.map_nil,
    List.sum_cons, List.sum_nil]
  norm_num

/-- Two identical rows with nonzero variance have Cronbach's alpha
exactly 1. -/
theorem cronbach_alpha_same (x : List ℚ) (hx : svar x ≠ 0) :
    cronbach_alpha [x, x] = 1 := by
  rw [cronbach_alpha_two, svar_double]
  field_simp
  ring

/-- C7: (i) for a two-row matrix, `cronbach_alpha` equals
K/(K-1) * (1 - (sum of per-row ddof=1 variances) / (ddof=1 variance of the
per-subject sums)) with K = 2; (ii) for two exactly identical rows of
nonzero variance the alpha is exactly 1; and (iii) on such data the
percentile bootstrap returns the degenerate zero-width interval (1, 1)
around the point estimate 1, for every draw of resample indices whose
resampled data keeps nonzero variance. -/
theorem C7_theorem (x1 x2 x : List ℚ) (B : ℕ) (rand : ℕ → ℕ → ℕ) :
    cronbach_alpha [x1, x2] =
      (2 : ℚ) / (2 - 1) *
        (1 - (svar x1 + svar x2) / svar (List.zipWith (· + ·) x1 x2)) ∧
    (svar x ≠ 0 → cronbach_alpha [x, x] = 1) ∧
    (svar x ≠ 0 → 0 < B →
      (∀ b < B, svar ((List.range x.length).map
        (fun i => x.getD (rand b i) 0)) ≠ 0) →
      cronbach_alpha_bootstrap [x, x] B rand = (1, 1, 1)) := by
  refine ⟨cronbach_alpha_two x1 x2, fun hx => cronbach_alpha_same x hx,
    fun hx hB hres => ?_⟩
  have hlist : ∀ a ∈ bootstrapAlphas [x, x] B rand, a = 1 := by
    intro a ha
    unfold bootstrapAlphas at ha
    simp only [List.mem_map, List.mem_range, List.map_cons, List.map_nil,
      List.headD_cons] at ha
    obtain ⟨b, hb, hab⟩ := ha
    rw [← hab]
    exact cronbach_alpha_same _ (hres b hb)
  have hlb := bootstrapAlphas_length [x, x] B rand
  have hnempty : bootstrapAlphas [x, x] B rand ≠ [] := by
    intro h
    rw [h] at hlb
    simp at hlb
    omega
  unfold cronbach_alpha_bootstrap
  rw [percentile_const _ 1 5 hnempty hlist (by norm_num) (by norm_num),
    percentile_const _ 1 95 hnempty hlist (by norm_num) (by norm_num),
    cronbach_alpha_same x hx]

/-- C7 witness: two identical rows [0, 1] have alpha exactly 1 and the
two-resample bootstrap with identity draws returns the degenerate
interval. -/
theorem C7_witness :
    cronbach_alpha [([0, 1] : List ℚ), [0, 1]] = 1 ∧
    cronbach_alpha_bootstrap [([0, 1] : List ℚ), [0, 1]] 2 (fun _ i => i) =
      (1, 1, 1) := by
  have h := C7_theorem [0, 1] [0, 1] [0, 1] 2 (fun _ i => i)
  exact ⟨h.2.1 (by decide), h.2.2 (by decide) (by norm_num) (by decide)⟩

end Sepsis3
